import Mathlib

/-!
Verification of the pg_shell worker agents and CLI against their
natural-language specification.  The Python sources are shallowly embedded:
pure computations (tokenization, path resolution, output capping) become Lean
functions, and the database-effecting procedures become functions from an
explicit table/row state to the effects they perform.
-/

namespace PgShell

/-! ### Tokenization (`shlex.split`, POSIX mode, whitespace_split)

`handle_command` tokenizes the submitted command text with `shlex.split`.
The state machine below reproduces CPython's `shlex.read_token` for
`posix=True`, `whitespace_split=True`, no comment characters: single quotes
quote verbatim, double quotes allow backslash escapes of `"` and `\`,
a bare backslash escapes the next character, and EOF inside a quote or an
escape raises `ValueError` with the messages reproduced here.
-/

/-- Characters `shlex` treats as token-separating whitespace. -/
def shlexWS (c : Char) : Bool :=
  c == ' ' || c == '\t' || c == '\r' || c == '\n'

/-- States of the `shlex` scanner: between tokens, inside a word, inside a
single- or double-quoted section, or just after a backslash escape (from a
word or from inside double quotes). -/
inductive LexState
  | sp
  | word
  | sq
  | dq
  | escWord
  | escDq
deriving DecidableEq

/-- One pass of the `shlex` scanner over the remaining characters.
`cur` is the token accumulated so far, `quoted` records whether the current
token saw a quote (so an empty quoted token is still emitted), and `acc`
holds the finished tokens. -/
def shlexRun : LexState → List Char → Bool → List String → List Char →
    Except String (List String)
  | .sp, cur, quoted, acc, [] =>
      if cur.isEmpty && !quoted then Except.ok acc
      else Except.ok (acc ++ [String.mk cur])
  | .word, cur, quoted, acc, [] =>
      if cur.isEmpty && !quoted then Except.ok acc
      else Except.ok (acc ++ [String.mk cur])
  | .sq, _, _, _, [] => Except.error "No closing quotation"
  | .dq, _, _, _, [] => Except.error "No closing quotation"
  | .escWord, _, _, _, [] => Except.error "No escaped character"
  | .escDq, _, _, _, [] => Except.error "No escaped character"
  | .sp, cur, quoted, acc, c :: rest =>
      if shlexWS c then
        if cur.isEmpty && !quoted then shlexRun .sp [] false acc rest
        else shlexRun .sp [] false (acc ++ [String.mk cur]) rest
      else if c == '\\' then shlexRun .escWord cur quoted acc rest
      else if c == '\'' then shlexRun .sq cur true acc rest
      else if c == '"' then shlexRun .dq cur true acc rest
      else shlexRun .word (cur ++ [c]) quoted acc rest
  | .word, cur, quoted, acc, c :: rest =>
      if shlexWS c then
        if cur.isEmpty && !quoted then shlexRun .sp [] false acc rest
        else shlexRun .sp [] false (acc ++ [String.mk cur]) rest
      else if c == '\'' then shlexRun .sq cur true acc rest
      else if c == '"' then shlexRun .dq cur true acc rest
      else if c == '\\' then shlexRun .escWord cur quoted acc rest
      else shlexRun .word (cur ++ [c]) quoted acc rest
  | .sq, cur, quoted, acc, c :: rest =>
      if c == '\'' then shlexRun .word cur quoted acc rest
      else shlexRun .sq (cur ++ [c]) quoted acc rest
  | .dq, cur, quoted, acc, c :: rest =>
      if c == '"' then shlexRun .word cur quoted acc rest
      else if c == '\\' then shlexRun .escDq cur quoted acc rest
      else shlexRun .dq (cur ++ [c]) quoted acc rest
  | .escWord, cur, quoted, acc, c :: rest =>
      shlexRun .word (cur ++ [c]) quoted acc rest
  | .escDq, cur, quoted, acc, c :: rest =>
      if c == '"' || c == '\\' then shlexRun .dq (cur ++ [c]) quoted acc rest
      else shlexRun .dq (cur ++ ['\\', c]) quoted acc rest

/-- `shlex.split` as used by `handle_command`: tokenize the whole string,
or fail with the `ValueError` message text. -/
def shlexSplit (s : String) : Except String (List String) :=
  shlexRun .sp [] false [] s.data

/-- Characters removed by Python's `str.strip` (ASCII whitespace). -/
def pyStripWS (c : Char) : Bool :=
  c == ' ' || c == '\t' || c == '\n' || c == '\r' || c == '\x0b' || c == '\x0c'

/-- Python's `str.strip`: drop leading and trailing whitespace. -/
def pyStrip (s : String) : String :=
  String.mk (((s.data.dropWhile pyStripWS).reverse.dropWhile pyStripWS).reverse)

example : shlexSplit "cd /tmp" = Except.ok ["cd", "/tmp"] := rfl
example : shlexSplit "cd 'a b'" = Except.ok ["cd", "a b"] := rfl
example : shlexSplit "echo 'oops" = Except.error "No closing quotation" := rfl
example : shlexSplit "echo x\\" = Except.error "No escaped character" := rfl
example : shlexSplit "a \"b\\nc\"" = Except.ok ["a", "b\\nc"] := rfl
example : pyStrip "  cd x \n" = "cd x" := rfl

/-! ### POSIX path helpers (`os.path.isabs`, `os.path.join`, `os.path.normpath`)
used by the `cd` built-in in `handle_command`.  They are implemented over
`List Char` so that every operation reduces definitionally. -/

/-- `charsPrefix pre l` holds when `pre` is a prefix of `l`. -/
def charsPrefix : List Char → List Char → Bool
  | [], _ => true
  | _ :: _, [] => false
  | a :: as, b :: bs => a == b && charsPrefix as bs

/-- `str.startswith` on strings. -/
def strStartsWith (s pre : String) : Bool := charsPrefix pre.data s.data

/-- `str.endswith` on strings. -/
def strEndsWith (s post : String) : Bool :=
  charsPrefix post.data.reverse s.data.reverse

/-- Python's `"x".split("/")` on character lists: split at every slash,
keeping empty components. -/
def splitOnSlash : List Char → List (List Char)
  | [] => [[]]
  | c :: rest =>
    let r := splitOnSlash rest
    if c == '/' then [] :: r
    else
      match r with
      | h :: t => (c :: h) :: t
      | [] => [[c]]

/-- `"/".join(comps)` on character lists. -/
def intercalateSlash : List (List Char) → List Char
  | [] => []
  | [x] => x
  | x :: y :: rest => x ++ '/' :: intercalateSlash (y :: rest)

/-- `os.path.isabs` for POSIX paths. -/
def isabs (p : String) : Bool := strStartsWith p "/"

/-- `os.path.join` for POSIX paths, two arguments. -/
def joinPath (a b : String) : String :=
  if strStartsWith b "/" then b
  else if a == "" || strEndsWith a "/" then a ++ b
  else a ++ "/" ++ b

/-- `os.path.normpath` for POSIX paths: collapse repeated separators and
resolve `.` and `..` components purely lexically, keeping the special
exactly-two-leading-slashes case. -/
def normpath (p : String) : String :=
  if p == "" then "."
  else
    let initialSlashes : Nat :=
      if strStartsWith p "/" then
        if strStartsWith p "//" && !(strStartsWith p "///") then 2 else 1
      else 0
    let comps := splitOnSlash p.data
    let newComps := comps.foldl (fun acc comp =>
      if comp == ([] : List Char) || comp == ['.'] then acc
      else if comp != ['.', '.'] || (initialSlashes == 0 && acc.isEmpty)
          || (!acc.isEmpty && acc.getLast? == some ['.', '.']) then acc ++ [comp]
      else if !acc.isEmpty then acc.dropLast
      else acc) []
    let joined := intercalateSlash newComps
    let res := String.mk (List.replicate initialSlashes '/' ++ joined)
    if res == "" then "." else res

example : normpath "/a/../b" = "/b" := rfl
example : normpath "a//b/./c" = "a/b/c" := rfl
example : normpath "" = "." := rfl
example : normpath "/.." = "/" := rfl
example : normpath "../x" = "../x" := rfl
example : joinPath "/home/sandbox" "sub" = "/home/sandbox/sub" := rfl
example : joinPath "/home" "/abs" = "/abs" := rfl

/-! ### The command queue and `fetch_pending` (executor_agent.py)

A `commands` row as seen by the executor.  `lockedByOther` abstracts a row
currently held `FOR UPDATE` by another worker (such rows are skipped by
`SKIP LOCKED`).  `fetch_pending` issues
`SELECT ... WHERE status = 'pending' ORDER BY submitted_at FOR UPDATE SKIP
LOCKED LIMIT 1`, then `UPDATE ... SET status = 'running'` on the returned id.
The table is modelled as a list in physical (scan) order; `ORDER BY
submitted_at` is a stable sort on that order, which realizes one of the
orders the database may produce (ties are unspecified in SQL). -/

inductive CmdStatus
  | pending
  | running
  | done
  | failed
deriving DecidableEq

structure QueueRow where
  id : Nat
  user_id : String
  command : String
  cwd_snapshot : String
  env_snapshot : Option String
  status : CmdStatus
  submitted_at : Nat
  lockedByOther : Bool
deriving DecidableEq

/-- Ordering used by `ORDER BY submitted_at`. -/
def submittedLe (a b : QueueRow) : Prop := a.submitted_at ≤ b.submitted_at

instance : DecidableRel submittedLe := fun a b => Nat.decLe a.submitted_at b.submitted_at

instance : IsTotal QueueRow submittedLe := ⟨fun a b => Nat.le_total a.submitted_at b.submitted_at⟩

instance : IsTrans QueueRow submittedLe := ⟨fun _ _ _ h h' => Nat.le_trans h h'⟩

/-- The rows produced by the `SELECT`'s `WHERE` and `ORDER BY` clauses. -/
def pendingSorted (table : List QueueRow) : List QueueRow :=
  List.insertionSort submittedLe
    (table.filter (fun r => decide (r.status = CmdStatus.pending)))

/-- `fetch_pending`: take the first unlocked row of the ordered pending rows
(`SKIP LOCKED ... LIMIT 1`), mark it running, and return it together with
the updated table; return `none` and the unchanged table when every pending
row is locked elsewhere. -/
def fetch_pending (table : List QueueRow) : Option QueueRow × List QueueRow :=
  match (pendingSorted table).find? (fun r => !r.lockedByOther) with
  | none => (none, table)
  | some r =>
    (some r,
     table.map (fun q => if q.id = r.id then { q with status := CmdStatus.running } else q))

/-! ### `run_subprocess` (executor_agent.py)

The capture loop reads chunks from the child's stdout/stderr.  A chunk is a
byte list (an empty chunk signals end-of-stream and is skipped).  While the
buffer is below `MAX_OUTPUT_BYTES` an overflowing chunk is truncated to the
remaining budget and the limit flag is set; once full, further non-empty
chunks only set the flag.  Whether the wall-clock deadline fired is the
`timedOut` parameter, and the child's `returncode` is a parameter as well;
on timeout the recorded exit code becomes 124 and the notice is prepended.
Byte strings are modelled as `List Nat`. -/

/-- Bytes of an ASCII string constant. -/
def strBytes (s : String) : List Nat := s.data.map (fun c => c.toNat)

/-- `TRUNCATION_SUFFIX = "...[truncated]"`. -/
def TRUNCATION_SUFFIX : List Nat := strBytes "...[truncated]"

/-- The prefix `f"Timed out after \x7bCOMMAND_TIMEOUT\x7ds\n"`. -/
def timeoutNotice (t : Nat) : List Nat :=
  strBytes ("Timed out after " ++ toString t ++ "s\n")

/-- One iteration of the output-capture loop on a single chunk. -/
def captureStep (maxBytes : Nat) (st : List Nat × Bool) (chunk : List Nat) :
    List Nat × Bool :=
  if chunk.isEmpty then st
  else if st.1.length < maxBytes then
    let remaining := maxBytes - st.1.length
    if chunk.length > remaining then (st.1 ++ chunk.take remaining, true)
    else (st.1 ++ chunk, st.2)
  else (st.1, true)

/-- The whole capture loop over the sequence of chunks read from the child. -/
def captureLoop (maxBytes : Nat) (chunks : List (List Nat)) : List Nat × Bool :=
  chunks.foldl (captureStep maxBytes) ([], false)

/-- `run_subprocess` after the capture loop: the recorded `(exit_code, text)`
pair, given the configured byte cap and timeout, the chunk sequence, whether
the deadline fired, and the child's return code. -/
def run_subprocess (maxBytes timeoutS : Nat) (chunks : List (List Nat))
    (timedOut : Bool) (returncode : Int) : Int × List Nat :=
  let res := captureLoop maxBytes chunks
  let exitCode : Int := if timedOut then 124 else returncode
  let text := if timedOut then timeoutNotice timeoutS ++ res.1 else res.1
  let text := if res.2 then text ++ TRUNCATION_SUFFIX else text
  (exitCode, text)

/-! ### `handle_command` (executor_agent.py)

Dispatch of a dequeued row: tokenization failure marks the row failed with
the parse-error text; exactly `cd <arg>` is the built-in (resolve against
`cwd_snapshot`, check `os.path.isdir` through the `isDir` oracle, update the
user's environment row on success); everything else goes to
`run_subprocess`, whose outcome (or raised exception) is the `runRes`
oracle.  The effects record captures the `update_command` write, the
optional `update_cwd` write, and whether a subprocess run was attempted. -/

structure CommandRow where
  id : Nat
  user_id : String
  command : String
  cwd_snapshot : String
  env_snapshot : Option String
deriving DecidableEq

structure HandleEffects where
  statusUpdate : Nat × String × String × Int
  cwdWrite : Option (String × String)
  spawned : Bool
deriving DecidableEq

/-- The path the `cd` built-in resolves `p` to. -/
def resolveCdPath (cwd p : String) : String :=
  if isabs p then normpath p else normpath (joinPath cwd p)

def handle_command (row : CommandRow) (isDir : String → Bool)
    (runRes : Except String (Int × String)) : HandleEffects :=
  let command := pyStrip row.command
  match shlexSplit command with
  | Except.error msg =>
      { statusUpdate := (row.id, "failed", msg, 1), cwdWrite := none, spawned := false }
  | Except.ok tokens =>
    match tokens with
    | ["cd", path] =>
      let new_cwd := if isabs path then normpath path
        else normpath (joinPath row.cwd_snapshot path)
      if !(isDir new_cwd) then
        { statusUpdate := (row.id, "failed", "cd: " ++ path ++ ": No such file or directory", 1),
          cwdWrite := none, spawned := false }
      else
        { statusUpdate := (row.id, "done", "", 0),
          cwdWrite := some (row.user_id, new_cwd), spawned := false }
    | _ =>
      match runRes with
      | Except.error msg =>
          { statusUpdate := (row.id, "failed", msg, 1), cwdWrite := none, spawned := true }
      | Except.ok (ec, out) =>
          { statusUpdate := (row.id, if ec = 0 then "done" else "failed", out, ec),
            cwdWrite := none, spawned := true }

/-! ### `resolve_listen_channel` / `setup_listener` (executor_agent.py)

At worker startup the notification channel name is resolved from the
`LISTEN_CHANNEL` environment variable when truthy, otherwise from the
`pg_shell_config` row for `listen_channel`, falling back to the compiled
default when the table is missing, the row is missing, or its value is not
truthy.  The outcome of the config query is the `ConfigFetch` parameter
(the persisted value is an `Option String` because the column is nullable). -/

def DEFAULT_LISTEN_CHANNEL : String := "new_command"

inductive ConfigFetch
  | missingTable
  | missingRow
  | value (v : Option String)
deriving DecidableEq

/-- Python truthiness of an optional string. -/
def pyTruthy : Option String → Bool
  | some s => !(s == "")
  | none => false

/-- `_fetch_channel_from_config`. -/
def fetch_channel_from_config : ConfigFetch → String
  | ConfigFetch.value v => if pyTruthy v then v.getD DEFAULT_LISTEN_CHANNEL
      else DEFAULT_LISTEN_CHANNEL
  | _ => DEFAULT_LISTEN_CHANNEL

/-- `resolve_listen_channel`: the environment override when truthy, otherwise
the persisted setting. -/
def resolve_listen_channel (envOverride : Option String) (cfg : ConfigFetch) : String :=
  match envOverride with
  | some s => if s == "" then fetch_channel_from_config cfg else s
  | none => fetch_channel_from_config cfg

/-- `setup_listener` resolves the channel once and executes `LISTEN` on it;
the value returned here is the channel subscribed to. -/
def setup_listener (envOverride : Option String) (cfg : ConfigFetch) : String :=
  resolve_listen_channel envOverride cfg

/-! ### `replay_commands` (replay_agent.py)

The history query selects the user's commands with `id >= start_id`,
`ORDER BY id ASC`, and the loop drains them with `fetchmany(100)`,
submitting each command on the separate submission connection and committing
immediately after each submission.  The observable trace is the sequence of
submit/commit events, plus the final log report. -/

structure HistRow where
  id : Nat
  user_id : String
  command : String
deriving DecidableEq

inductive ReplayEvent
  | submitted (user_id : String) (command : String)
  | committed
deriving DecidableEq

inductive ReplayReport
  | noCommands
  | replayed (n : Nat)
deriving DecidableEq

/-- Ordering used by `ORDER BY id ASC` on history rows. -/
def histLe (a b : HistRow) : Prop := a.id ≤ b.id

instance : DecidableRel histLe := fun a b => Nat.decLe a.id b.id

instance : IsTotal HistRow histLe := ⟨fun a b => Nat.le_total a.id b.id⟩

instance : IsTrans HistRow histLe := ⟨fun _ _ _ h h' => Nat.le_trans h h'⟩

/-- The result set of the history query. -/
def historyQuery (table : List HistRow) (u : String) (startId : Nat) : List HistRow :=
  List.insertionSort histLe
    (table.filter (fun r => r.user_id == u && decide (startId ≤ r.id)))

/-- `fetchmany(100)` batching of the result set; the fuel is an upper bound
on the number of rounds, instantiated with the row count. -/
def fetchBatchesGo : Nat → List HistRow → List (List HistRow)
  | _, [] => []
  | 0, _ :: _ => []
  | fuel + 1, x :: xs => ((x :: xs).take 100) :: fetchBatchesGo fuel ((x :: xs).drop 100)

def fetchBatches (l : List HistRow) : List (List HistRow) :=
  fetchBatchesGo l.length l

/-- `replay_commands`: the event trace (a submit followed by its commit, per
row, batch by batch) and the final report, which distinguishes the
zero-command case. -/
def replay_commands (table : List HistRow) (u : String) (startId : Nat) :
    List ReplayEvent × ReplayReport :=
  let batches := fetchBatches (historyQuery table u startId)
  let events :=
    (batches.map (fun b =>
      (b.map (fun r => [ReplayEvent.submitted u r.command, ReplayEvent.committed])).flatten)).flatten
  let total := (batches.map List.length).sum
  (events, if total == 0 then ReplayReport.noCommands else ReplayReport.replayed total)

/-! ### `cleanup_once` (cleanup_agent.py)

One cleanup run: delete the commands with `status = 'done'` submitted before
`now() - days * interval '1 day'`, then reset every environment row whose
`updated_at` is older than that cutoff to `cwd = '/home/sandbox'`, an empty
environment map, and `updated_at = now()`.  Timestamps are measured in days
as integers, so the cutoff is `now - days`. -/

structure StoredCommand where
  id : Nat
  status : String
  submitted_at : Int
deriving DecidableEq

structure Environment where
  user_id : String
  cwd : String
  env : List (String × String)
  updated_at : Int
deriving DecidableEq

/-- The fixed reset applied to a stale environment row. -/
def resetEnvironment (now : Int) (e : Environment) : Environment :=
  { e with cwd := "/home/sandbox", env := [], updated_at := now }

def cleanup_once (now days : Int) (cmds : List StoredCommand) (envs : List Environment) :
    List StoredCommand × List Environment :=
  let cutoff := now - days
  let kept := cmds.filter (fun c => !(c.status == "done" && decide (c.submitted_at < cutoff)))
  let userIds := (envs.filter (fun e => decide (e.updated_at < cutoff))).map (fun e => e.user_id)
  let envs' := userIds.foldl (fun acc uid =>
    acc.map (fun e => if e.user_id == uid then resetEnvironment now e else e)) envs
  (kept, envs')

/-! ### `tail_output` (cli/shell_cli.py) and the `latest_output` RPC

The CLI polls `latest_output` and prints every returned row, advancing
`last_id` to the largest id seen and sending it as `p_since_id` on the next
poll.  The table contents at each poll are given as a list of tables (one
per poll, so the number of polls is its length, as with `--max-polls`). -/

structure OutRow where
  id : Nat
  user_id : String
  command : String
  output : Option String
  status : String
  exit_code : Option Int
deriving DecidableEq

/-- Ordering used by `latest_output`'s ascending-id result order. -/
def outLe (a b : OutRow) : Prop := a.id ≤ b.id

instance : DecidableRel outLe := fun a b => Nat.decLe a.id b.id

instance : IsTotal OutRow outLe := ⟨fun a b => Nat.le_total a.id b.id⟩

instance : IsTrans OutRow outLe := ⟨fun _ _ _ h h' => Nat.le_trans h h'⟩

/-- Modelled from the spec: the database routine `latest_output(user_id,
since_id?)` is not under src (it is a store-resident function); per the spec
it returns all commands for the user with id greater than `since_id` (or
all, if omitted), ascending by id, including non-terminal rows. -/
def latest_output (table : List OutRow) (u : String) (sinceId : Option Nat) :
    List OutRow :=
  List.insertionSort outLe
    (table.filter (fun r => r.user_id == u &&
      match sinceId with
      | some s => decide (s < r.id)
      | none => true))

/-- The `last_id` update performed while printing a poll response. -/
def tailPoll (rows : List OutRow) (lastId : Option Nat) : Option Nat :=
  rows.foldl (fun last row =>
    match last with
    | none => some row.id
    | some l => if l < row.id then some row.id else some l) lastId

/-- The rows printed by the `tail_output` loop, in print order, over the
successive table states (one per poll). -/
def tail_output (u : String) (since : Option Nat) : List (List OutRow) → List OutRow
  | [] => []
  | t :: ts =>
    let rows := latest_output t u since
    rows ++ tail_output u (tailPoll rows since) ts

/-! ## Theorems -/

/-- C9: at worker startup the channel name is resolved as the environment
override when set, else the persisted `listen_channel` setting when readable,
else the compiled default `new_command` when the setting store is unavailable
(missing table or missing row); the worker subscribes to that channel. -/
theorem resolve_listen_channel_spec (s v : String) (cfg : ConfigFetch) :
    (s ≠ "" → setup_listener (some s) cfg = s)
    ∧ (v ≠ "" → setup_listener none (ConfigFetch.value (some v)) = v)
    ∧ setup_listener none ConfigFetch.missingTable = DEFAULT_LISTEN_CHANNEL
    ∧ setup_listener none ConfigFetch.missingRow = DEFAULT_LISTEN_CHANNEL
    ∧ (∀ ov c, setup_listener ov c = resolve_listen_channel ov c)
    ∧ DEFAULT_LISTEN_CHANNEL = "new_command" := by
  refine ⟨?_, ?_, rfl, rfl, fun _ _ => rfl, rfl⟩
  · intro h
    simp [setup_listener, resolve_listen_channel, h]
  · intro h
    simp [setup_listener, resolve_listen_channel, fetch_channel_from_config, pyTruthy, h]

/-- Witness for C9 at concrete channel names. -/
theorem resolve_listen_channel_spec_witness :
    ("chan" : String) ≠ ""
    ∧ setup_listener (some "chan") ConfigFetch.missingTable = "chan"
    ∧ ("persisted" : String) ≠ ""
    ∧ setup_listener none (ConfigFetch.value (some "persisted")) = "persisted" :=
  ⟨by decide,
   (resolve_listen_channel_spec "chan" "persisted" ConfigFetch.missingTable).1 (by decide),
   by decide,
   (resolve_listen_channel_spec "chan" "persisted" ConfigFetch.missingTable).2.1 (by decide)⟩

/-- C3: a dequeued command tokenizing to exactly `cd p` whose resolved path is
not an existing directory is marked failed with exit code 1 and the message
`cd: p: No such file or directory`, with no environment write and no
subprocess. -/
theorem handle_command_cd_missing (row : CommandRow) (isDir : String → Bool)
    (runRes : Except String (Int × String)) (p : String)
    (htok : shlexSplit (pyStrip row.command) = Except.ok ["cd", p])
    (hdir : isDir (resolveCdPath row.cwd_snapshot p) = false) :
    handle_command row isDir runRes =
      { statusUpdate := (row.id, "failed", "cd: " ++ p ++ ": No such file or directory", 1),
        cwdWrite := none, spawned := false } := by
  simp only [handle_command]
  rw [htok]
  simp only [resolveCdPath] at hdir
  simp [hdir]

/-- Witness for C3: `cd missing` under an `isDir` oracle that refuses. -/
theorem handle_command_cd_missing_witness :
    shlexSplit (pyStrip "cd missing") = Except.ok ["cd", "missing"]
    ∧ handle_command ⟨2, "u1", "cd missing", "/home/sandbox", none⟩
        (fun _ => false) (Except.ok (0, "")) =
      { statusUpdate := (2, "failed", "cd: missing: No such file or directory", 1),
        cwdWrite := none, spawned := false } :=
  ⟨rfl, handle_command_cd_missing ⟨2, "u1", "cd missing", "/home/sandbox", none⟩
    (fun _ => false) (Except.ok (0, "")) "missing" rfl rfl⟩

/-- C4 counterexample: the claim says an absolute `cd` argument is used
as-is, but the code normalizes it: `cd /a/../b` stores cwd `/b`, not
`/a/../b`. -/
theorem handle_command_cd_abs_counterexample :
    shlexSplit (pyStrip "cd /a/../b") = Except.ok ["cd", "/a/../b"]
    ∧ isabs "/a/../b" = true
    ∧ (handle_command ⟨3, "u1", "cd /a/../b", "/home", none⟩ (fun _ => true)
        (Except.ok (0, ""))).cwdWrite = some ("u1", "/b")
    ∧ ("/b" : String) ≠ "/a/../b" := by
  refine ⟨rfl, rfl, rfl, ?_⟩
  decide

/-- C4 (amended): a dequeued command tokenizing to exactly `cd p` whose
resolved path — `normpath p` when `p` is absolute, otherwise the
normalization of `cwd_snapshot` joined with `p` — is an existing directory
updates the user's environment cwd to exactly that resolved path and marks
the command done with empty output and exit code 0. -/
theorem handle_command_cd_success (row : CommandRow) (isDir : String → Bool)
    (runRes : Except String (Int × String)) (p : String)
    (htok : shlexSplit (pyStrip row.command) = Except.ok ["cd", p])
    (hdir : isDir (resolveCdPath row.cwd_snapshot p) = true) :
    handle_command row isDir runRes =
      { statusUpdate := (row.id, "done", "", 0),
        cwdWrite := some (row.user_id, resolveCdPath row.cwd_snapshot p),
        spawned := false } := by
  simp only [handle_command]
  rw [htok]
  simp only [resolveCdPath] at hdir ⊢
  simp [hdir]

/-- Witness for C4 at a concrete relative path. -/
theorem handle_command_cd_success_witness :
    shlexSplit (pyStrip "cd sub") = Except.ok ["cd", "sub"]
    ∧ handle_command ⟨4, "u2", "cd sub", "/home/sandbox", none⟩
        (fun _ => true) (Except.ok (0, "")) =
      { statusUpdate := (4, "done", "", 0),
        cwdWrite := some ("u2", "/home/sandbox/sub"), spawned := false } :=
  ⟨rfl, handle_command_cd_success ⟨4, "u2", "cd sub", "/home/sandbox", none⟩
    (fun _ => true) (Except.ok (0, "")) "sub" rfl rfl⟩

/-- C6: a dequeued command whose text fails tokenization is immediately
marked failed with the parse error text as output and exit code 1; no
subprocess is spawned and no environment write occurs. -/
theorem handle_command_parse_error (row : CommandRow) (isDir : String → Bool)
    (runRes : Except String (Int × String)) (msg : String)
    (htok : shlexSplit (pyStrip row.command) = Except.error msg) :
    handle_command row isDir runRes =
      { statusUpdate := (row.id, "failed", msg, 1), cwdWrite := none, spawned := false } := by
  simp only [handle_command]
  rw [htok]

/-- Witness for C6: an unbalanced quote. -/
theorem handle_command_parse_error_witness :
    shlexSplit (pyStrip "echo 'oops") = Except.error "No closing quotation"
    ∧ handle_command ⟨5, "u1", "echo 'oops", "/home", none⟩
        (fun _ => true) (Except.ok (0, "")) =
      { statusUpdate := (5, "failed", "No closing quotation", 1),
        cwdWrite := none, spawned := false } :=
  ⟨rfl, handle_command_parse_error ⟨5, "u1", "echo 'oops", "/home", none⟩
    (fun _ => true) (Except.ok (0, "")) "No closing quotation" rfl⟩

/-- Step equation: an empty chunk (end of stream) changes nothing. -/
lemma captureStep_empty (m : Nat) (st : List Nat × Bool) :
    captureStep m st [] = st := rfl

/-- Step equation: an overflowing chunk fills the buffer and sets the flag. -/
lemma captureStep_overflow (m : Nat) (st : List Nat × Bool) (c : List Nat)
    (hce : ¬ c.isEmpty = true) (hlt : st.1.length < m) (hbig : c.length > m - st.1.length) :
    captureStep m st c = (st.1 ++ c.take (m - st.1.length), true) := by
  simp only [captureStep, hce, if_false, hlt, if_true, hbig]
  rw [if_neg Bool.false_ne_true]

/-- Step equation: a fitting chunk is appended whole. -/
lemma captureStep_fits (m : Nat) (st : List Nat × Bool) (c : List Nat)
    (hce : ¬ c.isEmpty = true) (hlt : st.1.length < m) (hbig : ¬ c.length > m - st.1.length) :
    captureStep m st c = (st.1 ++ c, st.2) := by
  simp only [captureStep, hce, if_false, hlt, if_true, hbig]
  rw [if_neg Bool.false_ne_true]

/-- Step equation: a non-empty chunk arriving on a full buffer only sets the
flag. -/
lemma captureStep_full (m : Nat) (st : List Nat × Bool) (c : List Nat)
    (hce : ¬ c.isEmpty = true) (hlt : ¬ st.1.length < m) :
    captureStep m st c = (st.1, true) := by
  simp only [captureStep, hce, if_false, hlt]
  rw [if_neg Bool.false_ne_true]

/-- The capture loop buffers exactly the first `maxBytes` bytes of the
concatenated chunk stream, whatever the chunk boundaries. -/
lemma captureLoop_go_fst (m : Nat) :
    ∀ (chunks : List (List Nat)) (out : List Nat) (lim : Bool), out.length ≤ m →
      (chunks.foldl (captureStep m) (out, lim)).1 = (out ++ chunks.flatten).take m := by
  intro chunks
  induction chunks with
  | nil =>
    intro out lim h
    simp [List.take_of_length_le h]
  | cons c cs ih =>
    intro out lim h
    rw [List.foldl_cons]
    by_cases hce : c.isEmpty
    · have hc : c = [] := by simpa [List.isEmpty_iff] using hce
      subst hc
      rw [captureStep_empty]
      simpa using ih out lim h
    · by_cases hlt : out.length < m
      · by_cases hbig : c.length > m - out.length
        · rw [captureStep_overflow m (out, lim) c hce hlt hbig]
          rw [ih _ true (by simp [List.length_take]; omega)]
          have hklen : (out ++ c.take (m - out.length)).length = m := by
            simp [List.length_take]
            omega
          rw [List.take_left' hklen, List.flatten_cons]
          rw [List.take_append_eq_append_take,
            List.take_of_length_le (Nat.le_of_lt hlt),
            List.take_append_eq_append_take]
          have h0 : m - out.length - c.length = 0 := by omega
          rw [h0, List.take_zero, List.append_nil]
        · rw [captureStep_fits m (out, lim) c hce hlt hbig]
          rw [ih _ lim (by simp; omega)]
          simp [List.append_assoc]
      · rw [captureStep_full m (out, lim) c hce hlt]
        rw [ih _ true h]
        rw [List.flatten_cons, List.take_append_eq_append_take,
          List.take_append_eq_append_take]
        have h0 : m - out.length = 0 := by omega
        rw [h0]
        simp

/-- The limit flag is set exactly when the concatenated stream is longer
than `maxBytes`. -/
lemma captureLoop_go_snd (m : Nat) :
    ∀ (chunks : List (List Nat)) (out : List Nat) (lim : Bool), out.length ≤ m →
      (chunks.foldl (captureStep m) (out, lim)).2
        = (lim || decide (m < (out ++ chunks.flatten).length)) := by
  intro chunks
  induction chunks with
  | nil =>
    intro out lim h
    have h' : ¬ m < out.length := by omega
    simp [h']
  | cons c cs ih =>
    intro out lim h
    rw [List.foldl_cons]
    by_cases hce : c.isEmpty
    · have hc : c = [] := by simpa [List.isEmpty_iff] using hce
      subst hc
      rw [captureStep_empty]
      simpa using ih out lim h
    · have hcne : c.length ≠ 0 := by
        simpa [List.length_eq_zero, List.isEmpty_iff] using hce
      by_cases hlt : out.length < m
      · by_cases hbig : c.length > m - out.length
        · rw [captureStep_overflow m (out, lim) c hce hlt hbig]
          rw [ih _ true (by simp [List.length_take]; omega)]
          rw [Bool.true_or]
          have hlen2 : m < (out ++ (c :: cs).flatten).length := by
            rw [List.length_append, List.flatten_cons, List.length_append]
            omega
          rw [decide_eq_true hlen2, Bool.or_true]
        · rw [captureStep_fits m (out, lim) c hce hlt hbig]
          rw [ih _ lim (by simp; omega)]
          rw [List.flatten_cons, List.append_assoc]
      · rw [captureStep_full m (out, lim) c hce hlt]
        rw [ih _ true h]
        rw [Bool.true_or]
        have hlen2 : m < (out ++ (c :: cs).flatten).length := by
          rw [List.length_append, List.flatten_cons, List.length_append]
          omega
        rw [decide_eq_true hlen2, Bool.or_true]

/-- `captureLoop` buffers the capped prefix of the combined output. -/
lemma captureLoop_fst (m : Nat) (chunks : List (List Nat)) :
    (captureLoop m chunks).1 = chunks.flatten.take m := by
  simpa using captureLoop_go_fst m chunks [] false (by simp)

/-- `captureLoop` reports truncation exactly when the combined output
exceeds the cap. -/
lemma captureLoop_snd (m : Nat) (chunks : List (List Nat)) :
    (captureLoop m chunks).2 = decide (m < chunks.flatten.length) := by
  simpa using captureLoop_go_snd m chunks [] false (by simp)

/-- C5: on a run that hits the deadline the recorded exit code is the
synthetic 124 whatever the process return code was, and the stored text is
the timeout notice prepended to the captured (possibly capped and marked)
output. -/
theorem run_subprocess_timeout_spec (m t : Nat) (chunks : List (List Nat)) (rc : Int) :
    (run_subprocess m t chunks true rc).1 = 124
    ∧ (run_subprocess m t chunks true rc).2
        = timeoutNotice t ++ (chunks.flatten.take m ++
            if m < chunks.flatten.length then TRUNCATION_SUFFIX else []) := by
  constructor
  · rfl
  · simp only [run_subprocess, captureLoop_fst, captureLoop_snd,
      eq_self_iff_true, if_true]
    by_cases h : m < chunks.flatten.length
    · rw [if_pos (decide_eq_true h), if_pos h, List.append_assoc]
    · rw [if_neg (fun hc => h (of_decide_eq_true hc)), if_neg h, List.append_nil]

/-- C2 counterexample: with a timed-out run the stored text exceeds the byte
cap plus the truncation-marker length, because the timeout notice is
prepended on top of the capped output. -/
theorem run_subprocess_cap_counterexample :
    4 + TRUNCATION_SUFFIX.length
      < (run_subprocess 4 30 [[65, 65, 65, 65, 65]] true 0).2.length := by
  decide

/-- C2 (amended): the stored output never exceeds the byte cap plus the
truncation-marker length plus, on timed-out runs only, the length of the
timeout notice; and on a run without timeout whose combined output exceeds
the cap, the stored text is exactly the capped prefix with the marker
appended. -/
theorem run_subprocess_output_bound (m t : Nat) (chunks : List (List Nat))
    (timedOut : Bool) (rc : Int) :
    (run_subprocess m t chunks timedOut rc).2.length
        ≤ (if timedOut then (timeoutNotice t).length else 0) + m + TRUNCATION_SUFFIX.length
    ∧ (timedOut = false → m < chunks.flatten.length →
        (run_subprocess m t chunks timedOut rc).2 = chunks.flatten.take m ++ TRUNCATION_SUFFIX) := by
  constructor
  · have hlen : (chunks.flatten.take m).length ≤ m := by
      simp [List.length_take]
    cases timedOut with
    | false =>
      simp only [run_subprocess, captureLoop_fst, captureLoop_snd,
        if_neg Bool.false_ne_true]
      by_cases h : m < chunks.flatten.length
      · rw [if_pos (decide_eq_true h), List.length_append]
        omega
      · rw [if_neg (fun hc => h (of_decide_eq_true hc))]
        omega
    | true =>
      simp only [run_subprocess, captureLoop_fst, captureLoop_snd,
        eq_self_iff_true, if_true]
      by_cases h : m < chunks.flatten.length
      · rw [if_pos (decide_eq_true h), List.length_append, List.length_append]
        omega
      · rw [if_neg (fun hc => h (of_decide_eq_true hc)), List.length_append]
        omega
  · intro ht hm
    subst ht
    simp only [run_subprocess, captureLoop_fst, captureLoop_snd,
      if_neg Bool.false_ne_true]
    rw [if_pos (decide_eq_true hm)]

/-- Witness for C2's amended capped-prefix clause at a concrete overflowing
stream. -/
theorem run_subprocess_output_bound_witness :
    (run_subprocess 4 30 [[65, 66, 67], [68, 69]] false 0).2
      = ([[65, 66, 67], [68, 69]] : List (List Nat)).flatten.take 4 ++ TRUNCATION_SUFFIX :=
  (run_subprocess_output_bound 4 30 [[65, 66, 67], [68, 69]] false 0).2 rfl (by decide)

/-- On a `Pairwise`-ordered list, `find?` returns an element related to every
later match, hence minimal among all matches. -/
lemma find?_min {α : Type} {R : α → α → Prop} {p : α → Bool} :
    ∀ {l : List α} {r : α}, List.Pairwise R l → l.find? p = some r →
      ∀ q ∈ l, p q = true → r = q ∨ R r q := by
  intro l
  induction l with
  | nil => simp
  | cons a t ih =>
    intro r hp hf q hq hpq
    by_cases hpa : p a = true
    · rw [List.find?_cons_of_pos _ hpa] at hf
      have ha : a = r := by injection hf
      subst ha
      rcases List.mem_cons.mp hq with rfl | hq'
      · exact Or.inl rfl
      · exact Or.inr (List.rel_of_pairwise_cons hp hq')
    · rw [List.find?_cons_of_neg _ hpa] at hf
      rcases List.mem_cons.mp hq with rfl | hq'
      · exact absurd hpq hpa
      · exact ih (List.Pairwise.of_cons hp) hf q hq' hpq

/-- C1 counterexample: with two unlocked pending rows carrying the same
submission time, physically ordered with the larger id first, `fetch_pending`
returns the larger id — the claimed lowest-id tie-break does not exist in the
query, which orders by `submitted_at` alone. -/
theorem fetch_pending_tiebreak_counterexample :
    (fetch_pending
      [⟨2, "u1", "echo b", "/", none, CmdStatus.pending, 5, false⟩,
       ⟨1, "u1", "echo a", "/", none, CmdStatus.pending, 5, false⟩]).1
        = some ⟨2, "u1", "echo b", "/", none, CmdStatus.pending, 5, false⟩
    ∧ (⟨1, "u1", "echo a", "/", none, CmdStatus.pending, 5, false⟩ : QueueRow)
        ∈ [⟨2, "u1", "echo b", "/", none, CmdStatus.pending, 5, false⟩,
           ⟨1, "u1", "echo a", "/", none, CmdStatus.pending, 5, false⟩]
    ∧ (⟨1, "u1", "echo a", "/", none, CmdStatus.pending, 5, false⟩ : QueueRow).status
        = CmdStatus.pending
    ∧ (⟨1, "u1", "echo a", "/", none, CmdStatus.pending, 5, false⟩ : QueueRow).lockedByOther
        = false
    ∧ (5 : Nat) = 5 ∧ (1 : Nat) < 2 := by
  decide

/-- C1 (amended): `fetch_pending` returns a pending row not locked by another
worker whose submission time is minimal among all unlocked pending rows
(ties resolved by the table's row order, not necessarily by lowest id),
transitions exactly that row to running, and returns `none` leaving the table
unchanged when every pending row is locked elsewhere. -/
theorem fetch_pending_spec (table : List QueueRow) :
    ((fetch_pending table).1 = none →
      (fetch_pending table).2 = table ∧
      ∀ q ∈ table, q.status = CmdStatus.pending → q.lockedByOther = true)
    ∧ ∀ r, (fetch_pending table).1 = some r →
      r ∈ table ∧ r.status = CmdStatus.pending ∧ r.lockedByOther = false ∧
      (∀ q ∈ table, q.status = CmdStatus.pending → q.lockedByOther = false →
        r.submitted_at ≤ q.submitted_at) ∧
      (fetch_pending table).2 =
        table.map (fun q => if q.id = r.id then { q with status := CmdStatus.running } else q) := by
  rcases hfind : (pendingSorted table).find? (fun r => !r.lockedByOther) with _ | r0
  · constructor
    · intro _
      refine ⟨by simp [fetch_pending, hfind], ?_⟩
      intro q hq hqp
      have hq' : q ∈ pendingSorted table := by
        rw [pendingSorted, List.mem_insertionSort]
        exact List.mem_filter.mpr ⟨hq, by simpa using hqp⟩
      have hnone := List.find?_eq_none.mp hfind q hq'
      simpa using hnone
    · intro r hr
      simp [fetch_pending, hfind] at hr
  · constructor
    · intro hcontra
      simp [fetch_pending, hfind] at hcontra
    · intro r hr
      have hr0 : r0 = r := by simpa [fetch_pending, hfind] using hr
      subst hr0
      have hmem : r0 ∈ pendingSorted table := List.mem_of_find?_eq_some hfind
      have hmemf : r0 ∈ table.filter (fun r => decide (r.status = CmdStatus.pending)) := by
        rwa [pendingSorted, List.mem_insertionSort] at hmem
      obtain ⟨hmt, hps⟩ := List.mem_filter.mp hmemf
      have hpend : r0.status = CmdStatus.pending := by simpa using hps
      have hlock : r0.lockedByOther = false := by
        have hl := List.find?_some hfind
        simpa using hl
      refine ⟨hmt, hpend, hlock, ?_, by simp [fetch_pending, hfind]⟩
      intro q hq hqp hql
      have hqs : q ∈ pendingSorted table := by
        rw [pendingSorted, List.mem_insertionSort]
        exact List.mem_filter.mpr ⟨hq, by simpa using hqp⟩
      have hsorted : List.Pairwise submittedLe (pendingSorted table) :=
        List.sorted_insertionSort submittedLe _
      have hmin := find?_min hsorted hfind q hqs (by simp [hql])
      rcases hmin with h | h
      · exact h ▸ Nat.le_refl _
      · exact h

/-- Witness for C1 at a single-row table. -/
theorem fetch_pending_spec_witness :
    (⟨1, "u1", "ls", "/", none, CmdStatus.pending, 3, false⟩ : QueueRow)
        ∈ [(⟨1, "u1", "ls", "/", none, CmdStatus.pending, 3, false⟩ : QueueRow)]
    ∧ (fetch_pending [(⟨1, "u1", "ls", "/", none, CmdStatus.pending, 3, false⟩ : QueueRow)]).2
        = [(⟨1, "u1", "ls", "/", none, CmdStatus.pending, 3, false⟩ : QueueRow)].map
            (fun q => if q.id = (⟨1, "u1", "ls", "/", none, CmdStatus.pending, 3, false⟩ : QueueRow).id
              then { q with status := CmdStatus.running } else q) := by
  have h := (fetch_pending_spec
    [(⟨1, "u1", "ls", "/", none, CmdStatus.pending, 3, false⟩ : QueueRow)]).2
    ⟨1, "u1", "ls", "/", none, CmdStatus.pending, 3, false⟩ (by decide)
  exact ⟨h.1, h.2.2.2.2⟩

/-- The fuelled `fetchmany(100)` loop splits the row list into its successive
100-row batches: given enough fuel, the batches concatenate back to the list
and every batch is non-empty with at most 100 rows. -/
lemma fetchBatchesGo_spec :
    ∀ (fuel : Nat) (l : List HistRow), l.length ≤ fuel →
      (fetchBatchesGo fuel l).flatten = l
      ∧ ∀ b ∈ fetchBatchesGo fuel l, b.length ≤ 100 ∧ b ≠ [] := by
  intro fuel
  induction fuel with
  | zero =>
    intro l hl
    have : l = [] := List.eq_nil_of_length_eq_zero (Nat.le_zero.mp hl)
    subst this
    simp [fetchBatchesGo]
  | succ fuel ih =>
    intro l hl
    cases l with
    | nil => simp [fetchBatchesGo]
    | cons x xs =>
      have hdrop : ((x :: xs).drop 100).length ≤ fuel := by
        rw [List.length_drop, List.length_cons]
        rw [List.length_cons] at hl
        omega
      obtain ⟨ihflat, ihmem⟩ := ih ((x :: xs).drop 100) hdrop
      constructor
      · simp only [fetchBatchesGo, List.flatten_cons, ihflat]
        exact List.take_append_drop 100 (x :: xs)
      · intro b hb
        simp only [fetchBatchesGo, List.mem_cons] at hb
        rcases hb with rfl | hb'
        · refine ⟨by simp [List.length_take], ?_⟩
          simp [List.take_cons]
        · exact ihmem b hb'

/-- Flattening pairwise-mapped batches is the same as flattening the map of
the concatenated rows. -/
lemma flatten_map_flatten (L : List (List HistRow)) (f : HistRow → List ReplayEvent) :
    (L.map (fun b => (b.map f).flatten)).flatten = ((L.flatten).map f).flatten := by
  induction L with
  | nil => rfl
  | cons b L ih =>
    simp only [List.map_cons, List.flatten_cons, List.map_append, List.flatten_append, ih]

/-- Taking `2 * k` events from a flattened list of submit/commit pairs keeps
exactly the pairs of the first `k` rows. -/
lemma take_two_mul_flatten_pairs (u : String) :
    ∀ (l : List HistRow) (k : Nat),
      ((l.map (fun r => [ReplayEvent.submitted u r.command, ReplayEvent.committed])).flatten).take (2 * k)
        = ((l.take k).map (fun r => [ReplayEvent.submitted u r.command, ReplayEvent.committed])).flatten := by
  intro l
  induction l with
  | nil => intro k; simp
  | cons r rs ih =>
    intro k
    cases k with
    | zero => simp
    | succ k =>
      have h2 : 2 * (k + 1) = 2 * k + 1 + 1 := by omega
      simp only [List.map_cons, List.flatten_cons, List.take_succ_cons, h2,
        List.cons_append, List.take_succ_cons, List.nil_append]
      rw [ih k]

/-- C7: replay resubmits exactly the user's stored commands with id at least
the start id, in ascending id order, fetched in batches of at most 100 that
reassemble the full selection; the trace is a commit immediately after each
single submission (so any even-length prefix of the trace is exactly the
already-resubmitted prefix of the selection), and the zero-command case is
reported distinctly. -/
theorem replay_commands_spec (table : List HistRow) (u : String) (startId : Nat) :
    List.Perm (historyQuery table u startId)
        (table.filter (fun r => r.user_id == u && decide (startId ≤ r.id)))
    ∧ List.Pairwise histLe (historyQuery table u startId)
    ∧ (∀ b ∈ fetchBatches (historyQuery table u startId), b.length ≤ 100 ∧ b ≠ [])
    ∧ (fetchBatches (historyQuery table u startId)).flatten = historyQuery table u startId
    ∧ (replay_commands table u startId).1
        = ((historyQuery table u startId).map
            (fun r => [ReplayEvent.submitted u r.command, ReplayEvent.committed])).flatten
    ∧ (∀ k, ((replay_commands table u startId).1).take (2 * k)
        = (((historyQuery table u startId).take k).map
            (fun r => [ReplayEvent.submitted u r.command, ReplayEvent.committed])).flatten)
    ∧ (replay_commands table u startId).2
        = (if (historyQuery table u startId).length = 0 then ReplayReport.noCommands
           else ReplayReport.replayed (historyQuery table u startId).length) := by
  obtain ⟨hflat, hmem⟩ :=
    fetchBatchesGo_spec (historyQuery table u startId).length (historyQuery table u startId)
      (Nat.le_refl _)
  have hflat' : (fetchBatches (historyQuery table u startId)).flatten
      = historyQuery table u startId := hflat
  have hev : (replay_commands table u startId).1
      = ((historyQuery table u startId).map
          (fun r => [ReplayEvent.submitted u r.command, ReplayEvent.committed])).flatten := by
    simp only [replay_commands]
    rw [flatten_map_flatten, hflat']
  refine ⟨List.perm_insertionSort histLe _,
    List.sorted_insertionSort histLe _,
    hmem, hflat', hev, ?_, ?_⟩
  · intro k
    rw [hev]
    exact take_two_mul_flatten_pairs u (historyQuery table u startId) k
  · simp only [replay_commands]
    have hsum : ((fetchBatches (historyQuery table u startId)).map List.length).sum
        = (historyQuery table u startId).length := by
      rw [← List.length_flatten, hflat']
    rw [hsum]
    by_cases h0 : (historyQuery table u startId).length = 0
    · rw [if_pos (by simpa using h0), if_pos h0]
    · rw [if_neg (by simpa using h0), if_neg h0]

/-- Witness for C7's batch clause at a concrete three-row history. -/
theorem replay_commands_spec_witness :
    ([⟨1, "u1", "echo a"⟩, ⟨3, "u1", "echo c"⟩] : List HistRow).length ≤ 100
    ∧ ([⟨1, "u1", "echo a"⟩, ⟨3, "u1", "echo c"⟩] : List HistRow) ≠ [] :=
  (replay_commands_spec
    [⟨3, "u1", "echo c"⟩, ⟨1, "u1", "echo a"⟩, ⟨2, "u2", "echo b"⟩] "u1" 1).2.2.1
    [⟨1, "u1", "echo a"⟩, ⟨3, "u1", "echo c"⟩] (by decide)

/-- Folding the per-user reset updates over a list of user ids is the same as
resetting every row whose user id occurs in the list (the reset preserves the
user id and is idempotent). -/
lemma resetFold (now : Int) :
    ∀ (L : List String) (envs : List Environment),
      L.foldl (fun acc uid =>
          acc.map (fun e => if e.user_id == uid then resetEnvironment now e else e)) envs
        = envs.map (fun e => if e.user_id ∈ L then resetEnvironment now e else e) := by
  intro L
  induction L with
  | nil =>
    intro envs
    simp
  | cons u L ih =>
    intro envs
    rw [List.foldl_cons, ih, List.map_map]
    apply List.map_congr_left
    intro e _
    simp only [Function.comp]
    by_cases h1 : e.user_id = u
    · have hbeq : (e.user_id == u) = true := beq_iff_eq.mpr h1
      rw [if_pos hbeq]
      have hmem : e.user_id ∈ u :: L := by
        rw [List.mem_cons]
        exact Or.inl h1
      rw [if_pos hmem]
      by_cases h2 : (resetEnvironment now e).user_id ∈ L
      · rw [if_pos h2]
        rfl
      · rw [if_neg h2]
    · have hbeq : ¬ ((e.user_id == u) = true) := by simpa using h1
      rw [if_neg hbeq]
      by_cases h2 : e.user_id ∈ L
      · rw [if_pos h2, if_pos (by rw [List.mem_cons]; exact Or.inr h2)]
      · rw [if_neg h2, if_neg (fun hc => by
          rcases List.mem_cons.mp hc with h | h
          · exact h1 h
          · exact h2 h)]

/-- C8: one cleanup run with threshold `days` keeps exactly the commands that
are not both done and submitted before the cutoff, resets every environment
last updated before the cutoff to cwd `/home/sandbox`, an empty environment
map and a fresh `updated_at`, and leaves every environment updated at or
after the cutoff unchanged. -/
theorem cleanup_once_spec (now days : Int) (cmds : List StoredCommand)
    (envs : List Environment) (hnodup : (envs.map (fun e => e.user_id)).Nodup) :
    (∀ c, c ∈ (cleanup_once now days cmds envs).1 ↔
        c ∈ cmds ∧ ¬(c.status = "done" ∧ c.submitted_at < now - days))
    ∧ (cleanup_once now days cmds envs).2
        = envs.map (fun e =>
            if e.updated_at < now - days then resetEnvironment now e else e) := by
  constructor
  · intro c
    rw [show (cleanup_once now days cmds envs).1
        = cmds.filter (fun c => !(c.status == "done" && decide (c.submitted_at < now - days)))
      from rfl]
    rw [List.mem_filter]
    constructor
    · rintro ⟨hm, hf⟩
      refine ⟨hm, ?_⟩
      rintro ⟨hs, ht⟩
      simp [hs, ht] at hf
    · rintro ⟨hm, hn⟩
      refine ⟨hm, ?_⟩
      by_cases hs : c.status = "done"
      · have ht : ¬ c.submitted_at < now - days := fun ht => hn ⟨hs, ht⟩
        simp [hs, ht]
      · simp [hs]
  · simp only [cleanup_once]
    rw [resetFold]
    apply List.map_congr_left
    intro e he
    by_cases hold : e.updated_at < now - days
    · rw [if_pos ?memcase, if_pos hold]
      case memcase =>
        exact List.mem_map.mpr ⟨e, List.mem_filter.mpr ⟨he, by simpa using hold⟩, rfl⟩
    · rw [if_neg ?nomem, if_neg hold]
      case nomem =>
        intro hmem
        obtain ⟨e', he', heq⟩ := List.mem_map.mp hmem
        obtain ⟨he'2, hcond⟩ := List.mem_filter.mp he'
        have : e' = e :=
          List.inj_on_of_nodup_map hnodup he'2 he heq
        subst this
        exact hold (by simpa using hcond)

/-- Witness for C8 with the spec's 90-day scenario (now = day 100). -/
theorem cleanup_once_spec_witness :
    ((⟨1, "done", 0⟩ : StoredCommand) ∈
        (cleanup_once 100 90
          [⟨1, "done", 0⟩, ⟨2, "failed", 0⟩, ⟨3, "done", 50⟩]
          [⟨"u1", "/tmp", [("k", "1")], 0⟩, ⟨"u2", "/x", [], 90⟩]).1
      ↔ ((⟨1, "done", 0⟩ : StoredCommand) ∈
          [(⟨1, "done", 0⟩ : StoredCommand), ⟨2, "failed", 0⟩, ⟨3, "done", 50⟩]
        ∧ ¬((("done" : String) = "done") ∧ (0 : Int) < 100 - 90)))
    ∧ (cleanup_once 100 90
          [⟨1, "done", 0⟩, ⟨2, "failed", 0⟩, ⟨3, "done", 50⟩]
          [⟨"u1", "/tmp", [("k", "1")], 0⟩, ⟨"u2", "/x", [], 90⟩]).2
        = [⟨"u1", "/home/sandbox", [], 100⟩, ⟨"u2", "/x", [], 90⟩] := by
  have h := cleanup_once_spec 100 90
    [⟨1, "done", 0⟩, ⟨2, "failed", 0⟩, ⟨3, "done", 50⟩]
    [⟨"u1", "/tmp", [("k", "1")], 0⟩, ⟨"u2", "/x", [], 90⟩] (by decide)
  refine ⟨h.1 ⟨1, "done", 0⟩, ?_⟩
  rw [h.2]
  decide

/-- Starting the `last_id` fold from `some a` yields some value at least `a`. -/
lemma tailPoll_some_of_some :
    ∀ (rows : List OutRow) (a : Nat), ∃ m, tailPoll rows (some a) = some m ∧ a ≤ m := by
  intro rows
  induction rows with
  | nil =>
    intro a
    exact ⟨a, rfl, Nat.le_refl a⟩
  | cons r rs ih =>
    intro a
    by_cases h : a < r.id
    · obtain ⟨m, hm, hle⟩ := ih r.id
      refine ⟨m, ?_, Nat.le_of_lt (Nat.lt_of_lt_of_le h hle)⟩
      simpa [tailPoll, h] using hm
    · obtain ⟨m, hm, hle⟩ := ih a
      refine ⟨m, ?_, hle⟩
      simpa [tailPoll, h] using hm

/-- Every printed row's id is bounded by the `last_id` resulting from the
fold over its poll response. -/
lemma tailPoll_mem_le :
    ∀ (rows : List OutRow) (l : Option Nat) (r : OutRow), r ∈ rows →
      ∃ m, tailPoll rows l = some m ∧ r.id ≤ m := by
  intro rows
  induction rows with
  | nil =>
    intro l r hr
    simp at hr
  | cons x rs ih =>
    intro l r hr
    rcases List.mem_cons.mp hr with rfl | hr'
    · cases l with
      | none =>
        obtain ⟨m, hm, hle⟩ := tailPoll_some_of_some rs r.id
        exact ⟨m, by simpa [tailPoll] using hm, hle⟩
      | some a =>
        by_cases h : a < r.id
        · obtain ⟨m, hm, hle⟩ := tailPoll_some_of_some rs r.id
          exact ⟨m, by simpa [tailPoll, h] using hm, hle⟩
        · obtain ⟨m, hm, hle⟩ := tailPoll_some_of_some rs a
          exact ⟨m, by simpa [tailPoll, h] using hm, Nat.le_trans (Nat.le_of_not_lt h) hle⟩
    · cases l with
      | none =>
        obtain ⟨m, hm, hle⟩ := ih (some x.id) r hr'
        exact ⟨m, by simpa [tailPoll] using hm, hle⟩
      | some a =>
        by_cases h : a < x.id
        · obtain ⟨m, hm, hle⟩ := ih (some x.id) r hr'
          exact ⟨m, by simpa [tailPoll, h] using hm, hle⟩
        · obtain ⟨m, hm, hle⟩ := ih (some a) r hr'
          exact ⟨m, by simpa [tailPoll, h] using hm, hle⟩

/-- Sorting any duplicate-free selection of rows by id yields a strictly
increasing sequence. -/
lemma sorted_insertionSort_filter_lt (t : List OutRow) (pred : OutRow → Bool)
    (hnd : (t.map (fun r => r.id)).Nodup) :
    List.Pairwise (fun a b : OutRow => a.id < b.id)
      (List.insertionSort outLe (t.filter pred)) := by
  have hs : List.Pairwise outLe (List.insertionSort outLe (t.filter pred)) :=
    List.sorted_insertionSort outLe _
  have hperm : List.Perm (List.insertionSort outLe (t.filter pred)) (t.filter pred) :=
    List.perm_insertionSort outLe _
  have hndf : ((t.filter pred).map (fun r => r.id)).Nodup :=
    List.Nodup.sublist (List.Sublist.map (fun r => r.id) (List.filter_sublist t)) hnd
  have hnds : ((List.insertionSort outLe (t.filter pred)).map (fun r => r.id)).Nodup :=
    ((hperm.map (fun r => r.id)).nodup_iff).mpr hndf
  have hne := List.pairwise_map.mp hnds
  exact (hs.and hne).imp (fun h => Nat.lt_of_le_of_ne h.1 h.2)

/-- A poll response is strictly increasing in id when the table's ids carry
no duplicates. -/
lemma latest_output_sorted_lt (t : List OutRow) (u : String) (since : Option Nat)
    (hnd : (t.map (fun r => r.id)).Nodup) :
    List.Pairwise (fun a b : OutRow => a.id < b.id) (latest_output t u since) :=
  sorted_insertionSort_filter_lt t _ hnd

/-- Every row of a poll response issued with `p_since_id = s` has id above `s`. -/
lemma latest_output_gt_since (t : List OutRow) (u : String) (s : Nat) :
    ∀ r ∈ latest_output t u (some s), s < r.id := by
  intro r hr
  rw [latest_output, List.mem_insertionSort] at hr
  have hcond := (List.mem_filter.mp hr).2
  simp at hcond
  exact hcond.2

/-- Invariant of the tail loop: the printed rows are strictly increasing in
id, and all of them lie strictly above the initial `since` bound. -/
lemma tail_output_invariant :
    ∀ (tables : List (List OutRow)) (u : String) (since : Option Nat),
      (∀ t ∈ tables, (t.map (fun r => r.id)).Nodup) →
      List.Pairwise (fun a b : OutRow => a.id < b.id) (tail_output u since tables)
      ∧ ∀ r ∈ tail_output u since tables, ∀ a, since = some a → a < r.id := by
  intro tables
  induction tables with
  | nil =>
    intro u since _
    simp [tail_output]
  | cons t ts ih =>
    intro u since hnd
    have hndt := hnd t (List.mem_cons_self t ts)
    have hnds : ∀ t' ∈ ts, (t'.map (fun r => r.id)).Nodup :=
      fun t' ht' => hnd t' (List.mem_cons_of_mem t ht')
    obtain ⟨ihP, ihGt⟩ := ih u (tailPoll (latest_output t u since) since) hnds
    constructor
    · rw [tail_output]
      apply List.pairwise_append.mpr
      refine ⟨latest_output_sorted_lt t u since hndt, ihP, ?_⟩
      intro a ha b hb
      obtain ⟨m, hm, ham⟩ := tailPoll_mem_le (latest_output t u since) since a ha
      have hmb := ihGt b hb m hm
      omega
    · intro r hr a hsa
      subst hsa
      rw [tail_output] at hr
      rcases List.mem_append.mp hr with h | h
      · exact latest_output_gt_since t u a r h
      · obtain ⟨m, hm, ham⟩ := tailPoll_some_of_some (latest_output t u (some a)) a
        have hmr := ihGt r h m hm
        omega

/-- C10: across a whole tail session the printed rows carry strictly
increasing ids, and hence every command id is printed at most once — in
particular a row first observed non-terminal is never shown again, so its
later terminal output and exit code are never displayed by the same session. -/
theorem tail_output_prints_each_id_once (tables : List (List OutRow))
    (u : String) (since : Option Nat)
    (hids : ∀ t ∈ tables, (t.map (fun r => r.id)).Nodup) :
    List.Pairwise (fun a b : OutRow => a.id < b.id) (tail_output u since tables)
    ∧ ((tail_output u since tables).map (fun r => r.id)).Nodup := by
  obtain ⟨hp, _⟩ := tail_output_invariant tables u since hids
  exact ⟨hp, List.pairwise_map.mpr (hp.imp (fun h => Nat.ne_of_lt h))⟩

/-- Witness for C10: a session that first sees id 1 while running, then polls
again after id 1 has completed and id 2 has appeared. -/
theorem tail_output_prints_each_id_once_witness :
    List.Pairwise (fun a b : OutRow => a.id < b.id)
      (tail_output "u1" none
        [[⟨1, "u1", "echo hi", none, "running", none⟩],
         [⟨1, "u1", "echo hi", some "hi", "done", some 0⟩,
          ⟨2, "u1", "ls", some "x", "done", some 0⟩]]) :=
  (tail_output_prints_each_id_once
    [[⟨1, "u1", "echo hi", none, "running", none⟩],
     [⟨1, "u1", "echo hi", some "hi", "done", some 0⟩,
      ⟨2, "u1", "ls", some "x", "done", some 0⟩]] "u1" none (by decide)).1

example :
    tail_output "u1" none
      [[⟨1, "u1", "echo hi", none, "running", none⟩],
       [⟨1, "u1", "echo hi", some "hi", "done", some 0⟩,
        ⟨2, "u1", "ls", some "x", "done", some 0⟩]]
    = [⟨1, "u1", "echo hi", none, "running", none⟩,
       ⟨2, "u1", "ls", some "x", "done", some 0⟩] := rfl

end PgShell
